import Mathlib

/-
Verification development for the block-production and commit core of the
Exonum blockchain node (src/exonum/src/blockchain/mod.rs).

The embedding below translates the code of mod.rs into Lean definitions.
The sibling modules that mod.rs uses (block.rs, schema.rs, service.rs,
genesis.rs) and the external collaborators (exonum_merkledb, crypto) are
not part of the given sources; where a definition stands in for them it is
marked "Modelled from the spec:" and follows the words of the
specification document.

Conventions of the embedding:
* byte strings and 32-byte digests are Nat values;
* each persistent table of the schema is an association list keyed by Nat;
* a Fork is a pair of schema states: the state at the last flush
  (savepoint) and the current working overlay, matching the fork contract
  of section 5 of the spec (flush finalizes a savepoint, rollback reverts
  to it, into_patch seals the working state);
* the service registry is carried as a list of services in HashMap
  iteration order.  The Rust source stores services in a
  std::collections::HashMap, whose iteration order is arbitrary and in
  particular is not required to be ascending in the key, so any
  permutation of the registry is a legal iteration order;
* panics are explicit outcome values; a storage-caused panic is the
  is_storage flag of PanicInfo.
-/

namespace Exonum

/-- Stand-in for the deterministic cryptographic digest function of the
crypto collaborator (spec section 6: deterministic hashing producing
32-byte digests).  Any concrete deterministic function works for the
claims below; this one is a polynomial fold over the byte list. -/
def cryptoHash (bytes : List Nat) : Nat :=
  bytes.foldl (fun a b => a * 1000003 + b + 1) 7

/-- Lookup in an association list (a MapIndex or BTreeMap keyed by Nat). -/
def getA {α : Type} : List (Nat × α) → Nat → Option α
  | [], _ => none
  | p :: rest, k => if p.1 = k then some p.2 else getA rest k

/-- Insert-or-replace in an association list. -/
def putA {α : Type} : List (Nat × α) → Nat → α → List (Nat × α)
  | [], k, v => [(k, v)]
  | p :: rest, k, v => if p.1 = k then (k, v) :: rest else p :: putA rest k v

/-- Remove a key from an association list. -/
def removeA {α : Type} : List (Nat × α) → Nat → List (Nat × α)
  | [], _ => []
  | p :: rest, k => if p.1 = k then rest else p :: removeA rest k

/-- Little-endian 16-bit byte encoding, written from the words of the
spec (section 4.3, step 5): LE16 of a value is its low byte followed by
its high byte. -/
def le16 (x : Nat) : List Nat := [x % 256, x / 256 % 256]

/-- Model of LittleEndian::write_u16 into a byte vector at an offset:
position off receives the low byte and position off+1 the high byte. -/
def writeU16LE (v : List Nat) (off x : Nat) : List Nat :=
  (v.set off (x % 256)).set (off + 1) (x / 256 % 256)

/-- Insertion step for sorting aggregator entries by key. -/
def insKV (p : Nat × Nat) : List (Nat × Nat) → List (Nat × Nat)
  | [] => [p]
  | q :: rest => if p.1 ≤ q.1 then p :: q :: rest else q :: insKV p rest

/-- Sort key-value pairs by key.  Used to make the root hash of a
merkleized map independent of insertion order, per the determinism
rationale of spec section 4.3. -/
def sortKV (l : List (Nat × Nat)) : List (Nat × Nat) := l.foldr insKV []

/-- Raw transaction payload: service_id plus an opaque payload
(spec section 3, Transaction). -/
structure RawTransaction where
  service_id : Nat
  payload : Nat
deriving DecidableEq

/-- Signed transaction envelope (Signed of RawTransaction). -/
structure SignedTx where
  raw : RawTransaction
  author : Nat
  signature : Nat
deriving DecidableEq

/-- Modelled from the spec: transaction identity is the hash of the full
signed envelope (spec section 3). -/
def SignedTx.hash (t : SignedTx) : Nat :=
  cryptoHash [t.raw.service_id, t.raw.payload, t.author, t.signature]

/-- Location of a committed transaction: block height and position
inside the block (schema::TxLocation). -/
structure TxLocation where
  block_height : Nat
  position_in_block : Nat
deriving DecidableEq

/-- Classified per-transaction result stored in transaction_results
(transaction::TransactionResult): ok, a structured error with code and
description, or a recorded panic. -/
inductive TransactionResult where
  | success
  | failure (code : Nat) (descr : Nat)
  | panicked (descr : Nat)
deriving DecidableEq

/-- Block header with its fixed fields (block::Block). -/
structure Block where
  proposer_id : Nat
  height : Nat
  tx_count : Nat
  prev_hash : Nat
  tx_hash : Nat
  state_hash : Nat
deriving DecidableEq

/-- Modelled from the spec: the hash of a block header is a pure function
of its fields (spec section 3). -/
def Block.hash (b : Block) : Nat :=
  cryptoHash [b.proposer_id, b.height, b.tx_count, b.prev_hash, b.tx_hash, b.state_hash]

/-- Modelled from the spec: the default all-zero 32-byte digest
(Hash::default and Hash::zero of the crypto collaborator). -/
def Hash.zero : Nat := 0

/-- Default block header value used to totalize lookups that the Rust
code would treat as unreachable panics. -/
def defaultBlock : Block := ⟨0, 0, 0, 0, 0, 0⟩

/-- Stored configuration record (config::StoredConfiguration); the
services field maps service name to its initial configuration blob. -/
structure StoredConfiguration where
  previous_cfg_hash : Nat
  actual_from : Nat
  validator_keys : List Nat
  consensus : Nat
  services : List (Nat × Nat)
deriving DecidableEq

/-- Byte encoding of a stored configuration; the service map is encoded
in ascending name order, as a BTreeMap iterates. -/
def StoredConfiguration.encode (c : StoredConfiguration) : List Nat :=
  c.previous_cfg_hash :: c.actual_from :: c.consensus ::
    (c.validator_keys ++ (sortKV c.services).foldr (fun p acc => p.1 :: p.2 :: acc) [])

/-- Logical persistent schema of the core (schema.rs), one association
list or list per table of spec section 3.  service_kv is the union of the
service-owned tables (each service defines its own information schema;
only services read and write it). -/
structure Schema where
  block_hashes_by_height : List Nat
  blocks : List (Nat × Block)
  transactions : List (Nat × SignedTx)
  transactions_pool : List Nat
  transaction_results : List (Nat × TransactionResult)
  block_transactions : List (Nat × List Nat)
  transactions_locations : List (Nat × TxLocation)
  state_hash_aggregator : List (Nat × Nat)
  consensus_messages_cache : List Nat
  precommits : List (Nat × List Nat)
  transaction_count : Nat
  configs : List StoredConfiguration
  service_kv : List (Nat × Nat)
deriving DecidableEq

/-- Schema state with every table empty. -/
def emptySchema : Schema := ⟨[], [], [], [], [], [], [], [], [], [], 0, [], []⟩

/-- Ordered list of transaction hashes applied at a height
(schema block_transactions index). -/
def Schema.getBlockTxs (s : Schema) (height : Nat) : List Nat :=
  (getA s.block_transactions height).getD []

/-- Blockchain::last_hash: the last entry of block_hashes_by_height, or
the default hash when no block has been committed. -/
def Schema.last_hash (s : Schema) : Nat :=
  s.block_hashes_by_height.getLast?.getD Hash.zero

/-- Schema::last_block: the header stored under the last committed block
hash.  The Rust code panics when the chain is empty; the model totalizes
that unreachable branch with defaultBlock. -/
def Schema.last_block (s : Schema) : Block :=
  match s.block_hashes_by_height.getLast? with
  | none => defaultBlock
  | some h => (getA s.blocks h).getD defaultBlock

/-- Modelled from the spec: Schema::commit_transaction moves the envelope
into the persistent transactions table (spec section 4.4 step 5); pool
entries are removed when included in a block (spec section 3,
Lifecycle). -/
def Schema.commit_transaction (s : Schema) (hash : Nat) (tx : SignedTx) : Schema :=
  let txs := putA s.transactions hash tx
  let pool := s.transactions_pool.filter (fun h => h != hash)
  { s with transactions := txs, transactions_pool := pool }

/-- Modelled from the spec: Schema::add_transaction_into_pool inserts the
envelope into the mempool, write-once with dedup by hash (spec section 3,
Lifecycle). -/
def Schema.add_transaction_into_pool (s : Schema) (tx : SignedTx) : Schema :=
  if SignedTx.hash tx ∈ s.transactions_pool then s
  else { s with transactions_pool := s.transactions_pool ++ [SignedTx.hash tx] }

/-- Modelled from the spec: Schema::core_state_hash returns the ordered
vector of core-schema table roots (spec section 4.3 step 5a); the model
exposes the root of the configuration history. -/
def Schema.core_state_hash (s : Schema) : List Nat :=
  [cryptoHash (s.configs.foldr (fun c acc => StoredConfiguration.encode c ++ acc) [])]

/-- Fork over the committed state: the schema at the last flush
(the savepoint rollback returns to) and the current working overlay. -/
structure Fork where
  flushed : Schema
  working : Schema
deriving DecidableEq

/-- Database::fork: a fresh fork over a committed store state. -/
def Fork.ofStore (s : Schema) : Fork := ⟨s, s⟩

/-- Fork::flush: finalize a savepoint at the current working state. -/
def Fork.flush (f : Fork) : Fork := ⟨f.working, f.working⟩

/-- Fork::rollback: revert the working state to the last flush. -/
def Fork.rollback (f : Fork) : Fork := ⟨f.flushed, f.flushed⟩

/-- Fork::into_patch: seal the overlay into a mergeable patch; under the
single-writer contract the patch is the resulting full store state. -/
def Fork.into_patch (f : Fork) : Schema := f.working

/-- Replace the service-owned tables of a schema state; this is how a
service write-set lands in the fork. -/
def Schema.applyKv (s : Schema) (kv : List (Nat × Nat)) : Schema :=
  { s with service_kv := kv }

/-- Cause of an unexpected service termination; is_storage marks a
StorageError cause. -/
structure PanicInfo where
  is_storage : Bool
  descr : Nat
deriving DecidableEq

/-- Outcome of running a transaction executable under the fault barrier:
a normal Ok, a structured execution error, or a panic. -/
inductive ExecutionOutcome where
  | ok
  | execErr (code : Nat) (descr : Nat)
  | panicked (p : PanicInfo)
deriving DecidableEq

/-- Executable transaction handler (the Transaction object returned by
tx_from_raw): reads the fork state, produces its service write-set and
an outcome. -/
def TxHandler : Type := Schema → List (Nat × Nat) × ExecutionOutcome

/-- Modelled from the spec: a service (service.rs) exposes a numeric id,
a name, a genesis-initialization routine (Rust Service::initialize,
renamed here to init_hook), a transaction parser, a before_commit hook
that may panic, and a state_hash query (spec section 3).  Hooks and
handlers read the whole schema and write the service-owned tables. -/
structure Service where
  service_id : Nat
  service_name : Nat
  init_hook : Schema → List (Nat × Nat) × Nat
  tx_from_raw : RawTransaction → Option TxHandler
  before_commit : Schema → List (Nat × Nat) × Option PanicInfo
  state_hash : Schema → List Nat

/-- Blockchain instance: the service registry in HashMap iteration
order.  Blockchain::new rejects duplicate service_id values, so the ids
are pairwise distinct, but std HashMap iteration gives no ordering
guarantee, so the list may stand in any order. -/
structure Blockchain where
  services : List Service

/-- HashMap::get on the service registry: lookup by service_id. -/
def Blockchain.find_service (bc : Blockchain) (sid : Nat) : Option Service :=
  bc.services.find? (fun s => s.service_id == sid)

/-- Blockchain::tx_from_raw: find the service named by the raw message
and let it parse the payload. -/
def Blockchain.tx_from_raw (bc : Blockchain) (raw : RawTransaction) : Option TxHandler :=
  match bc.find_service raw.service_id with
  | none => none
  | some s => s.tx_from_raw raw

/-- get_tx of mod.rs: look the hash up in the persistent transactions
table, falling back to the in-memory tx-cache. -/
def get_tx (hash : Nat) (txs : List (Nat × SignedTx))
    (tx_cache : List (Nat × SignedTx)) : Option SignedTx :=
  match getA txs hash with
  | some t => some t
  | none => getA tx_cache hash

/-- Id of the core service table family (CORE_SERVICE of mod.rs). -/
def CORE_SERVICE : Nat := 0

/-- Blockchain::service_table_unique_key: hash of the 4-byte vector
holding the LE 16-bit encodings of service_id and table_idx, written by
two LittleEndian::write_u16 calls into a zeroed vector. -/
def service_table_unique_key (service_id table_idx : Nat) : Nat :=
  cryptoHash (writeU16LE (writeU16LE (List.replicate 4 0) 0 service_id) 2 table_idx)

/-- Conversion of an execution outcome to the recorded transaction
result (TransactionError::from and TransactionError::from_panic). -/
def resultOf : ExecutionOutcome → TransactionResult
  | .ok => .success
  | .execErr c d => .failure c d
  | .panicked p => .panicked p.descr

/-- Bookkeeping block of Blockchain::execute_transaction: store the
classified result, move the envelope into the transactions table, append
the hash to block_transactions at the height, and record the location. -/
def recordTx (tx_hash : Nat) (raw : SignedTx) (res : TransactionResult)
    (height index : Nat) (s : Schema) : Schema :=
  let s1 := { s with transaction_results := putA s.transaction_results tx_hash res }
  let s2 := Schema.commit_transaction s1 tx_hash raw
  let bt := putA s2.block_transactions height (Schema.getBlockTxs s2 height ++ [tx_hash])
  let s3 := { s2 with block_transactions := bt }
  let locs := putA s3.transactions_locations tx_hash (⟨height, index⟩ : TxLocation)
  { s3 with transactions_locations := locs }

/-- Result of Blockchain::execute_transaction: a rethrown StorageError
panic, the Err return (the BUG cases: missing or unparseable
transaction), or success with the updated fork and tx-cache. -/
inductive ExecResult where
  | fatal_storage (descr : Nat)
  | execution_error
  | ok (fork : Fork) (cache : List (Nat × SignedTx))
deriving DecidableEq

/-- Blockchain::execute_transaction: resolve the envelope from the
transactions table or the tx-cache, resolve the service and parse the
payload, run the executable under the fault barrier, classify the
outcome (rollback on error or non-storage panic, rethrow on a
StorageError panic), record the result, and flush the fork. -/
def Blockchain.execute_transaction (bc : Blockchain) (tx_hash height index : Nat)
    (fork : Fork) (tx_cache : List (Nat × SignedTx)) : ExecResult :=
  match get_tx tx_hash fork.working.transactions tx_cache with
  | none => .execution_error
  | some raw =>
    match bc.find_service raw.raw.service_id with
    | none => .execution_error
    | some _svc =>
      match bc.tx_from_raw raw.raw with
      | none => .execution_error
      | some handler =>
        match (handler fork.working).2 with
        | .panicked p =>
          if p.is_storage then
            .fatal_storage p.descr
          else
            let rec1 := recordTx tx_hash raw (.panicked p.descr) height index
              (Fork.rollback fork).working
            .ok (Fork.flush ⟨fork.flushed, rec1⟩) (removeA tx_cache tx_hash)
        | .execErr c d =>
            let rec1 := recordTx tx_hash raw (.failure c d) height index
              (Fork.rollback fork).working
            .ok (Fork.flush ⟨fork.flushed, rec1⟩) (removeA tx_cache tx_hash)
        | .ok =>
            let rec1 := recordTx tx_hash raw .success height index
              (Schema.applyKv fork.working (handler fork.working).1)
            .ok (Fork.flush ⟨fork.flushed, rec1⟩) (removeA tx_cache tx_hash)

/-- Transaction loop of Blockchain::create_patch: execute the hashes in
input order with increasing index, propagating a storage panic and
turning the Err return into the builder panic of the expect call. -/
def Blockchain.execTxs (bc : Blockchain) (height : Nat) :
    List Nat → Nat → Fork → List (Nat × SignedTx) → ExecResult
  | [], _, fork, cache => .ok fork cache
  | h :: rest, index, fork, cache =>
    match bc.execute_transaction h height index fork cache with
    | .fatal_storage d => .fatal_storage d
    | .execution_error => .execution_error
    | .ok fork' cache' => bc.execTxs height rest (index + 1) fork' cache'

/-- Result of running one before_commit hook under the fault barrier. -/
inductive HookRes where
  | fatal (descr : Nat)
  | ok (fork : Fork)
deriving DecidableEq

/-- Free function before_commit of mod.rs: run the service hook under
the fault barrier; flush on success, rethrow a StorageError panic, roll
back on any other panic. -/
def before_commit (service : Service) (fork : Fork) : HookRes :=
  match (service.before_commit fork.working).2 with
  | none => .ok (Fork.flush ⟨fork.flushed,
      Schema.applyKv fork.working (service.before_commit fork.working).1⟩)
  | some p =>
    if p.is_storage then .fatal p.descr
    else .ok (Fork.rollback ⟨fork.flushed,
      Schema.applyKv fork.working (service.before_commit fork.working).1⟩)

/-- Result of the hook loop: a rethrown storage panic, or the fork plus
the trace of the service ids whose before_commit hook was invoked, in
invocation order. -/
inductive HooksRes where
  | fatal (descr : Nat)
  | ok (fork : Fork) (trace : List Nat)
deriving DecidableEq

/-- Hook loop of Blockchain::create_patch: for every service of the
registry, in registry iteration order, invoke before_commit unless the
height is the genesis height.  The trace records the invocations. -/
def runHooks (height : Nat) : List Service → Fork → HooksRes
  | [], fork => .ok fork []
  | svc :: rest, fork =>
    if 0 < height then
      match before_commit svc fork with
      | .fatal d => .fatal d
      | .ok fork' =>
        match runHooks height rest fork' with
        | .fatal d => .fatal d
        | .ok fork'' tr => .ok fork'' (svc.service_id :: tr)
    else
      runHooks height rest fork

/-- State-hash collection of Blockchain::create_patch: core table roots
keyed under CORE_SERVICE, then every service state_hash vector keyed by
service_table_unique_key, in registry iteration order. -/
def collectStateHashes (bc : Blockchain) (fork : Fork) : List (Nat × Nat) :=
  (Schema.core_state_hash fork.working).enum.map
      (fun p => (service_table_unique_key CORE_SERVICE p.1, p.2)) ++
    bc.services.foldr
      (fun s acc =>
        ((s.state_hash fork.working).enum.map
          (fun p => (service_table_unique_key s.service_id p.1, p.2))) ++ acc)
      []

/-- Insert collected entries into the state-hash aggregator table. -/
def aggregatorPut (agg : List (Nat × Nat)) (entries : List (Nat × Nat)) :
    List (Nat × Nat) :=
  entries.foldl (fun a p => putA a p.1 p.2) agg

/-- Modelled from the spec: object_hash of the merkleized aggregator map;
the root depends only on the key-value content, not on insertion order,
so the model hashes the entries in sorted key order (spec section 4.3,
determinism rationale). -/
def aggObjectHash (agg : List (Nat × Nat)) : Nat :=
  cryptoHash ((sortKV agg).foldr (fun p acc => p.1 :: p.2 :: acc) [])

/-- Header-building tail of Blockchain::create_patch: insert the state
hashes into the aggregator, compute the state hash and the transactions
root, build the header, push its hash onto block_hashes_by_height and
store the header in blocks. -/
def finalizeBlock (bc : Blockchain) (proposer_id height ntx last_hash : Nat)
    (fork : Fork) : Nat × Schema :=
  let s := fork.working
  let agg := aggregatorPut s.state_hash_aggregator (collectStateHashes bc fork)
  let sAgg := { s with state_hash_aggregator := agg }
  let block : Block := ⟨proposer_id, height, ntx, last_hash,
    cryptoHash (Schema.getBlockTxs sAgg height), aggObjectHash agg⟩
  let block_hash := Block.hash block
  let heights := sAgg.block_hashes_by_height ++ [block_hash]
  let s2 := { sAgg with block_hashes_by_height := heights }
  (block_hash, { s2 with blocks := putA s2.blocks block_hash block })

/-- Result of Blockchain::create_patch: a propagated storage panic, the
builder panic of the expect call, or the block hash with the sealed
patch, the remaining tx-cache, and the before_commit invocation trace. -/
inductive BuildOut where
  | fatal (descr : Nat)
  | builder_bug
  | ok (block_hash : Nat) (patch : Schema) (cache : List (Nat × SignedTx))
      (hook_trace : List Nat)
deriving DecidableEq

/-- Blockchain::create_patch: fork the committed state, capture
last_hash from the committed snapshot, execute the transactions in
order, run the before_commit hooks, aggregate state hashes, and build
the header. -/
def Blockchain.create_patch (bc : Blockchain) (store : Schema)
    (proposer_id height : Nat) (tx_hashes : List Nat)
    (tx_cache : List (Nat × SignedTx)) : BuildOut :=
  match bc.execTxs height tx_hashes 0 (Fork.ofStore store) tx_cache with
  | .fatal_storage d => .fatal d
  | .execution_error => .builder_bug
  | .ok fork1 cache1 =>
    match runHooks height bc.services fork1 with
    | .fatal d => .fatal d
    | .ok fork2 tr =>
      let fb := finalizeBlock bc proposer_id height tx_hashes.length
        (Schema.last_hash store) fork2
      .ok fb.1 fb.2 cache1 tr

/-- Block hash component of a build result. -/
def buildHash : BuildOut → Option Nat
  | .ok bh _ _ _ => some bh
  | _ => none

/-- Patch component of a build result. -/
def buildPatch : BuildOut → Option Schema
  | .ok _ patch _ _ => some patch
  | _ => none

/-- Remaining tx-cache component of a build result. -/
def buildCache : BuildOut → Option (List (Nat × SignedTx))
  | .ok _ _ cache _ => some cache
  | _ => none

/-- Hook trace component of a build result. -/
def buildTrace : BuildOut → Option (List Nat)
  | .ok _ _ _ tr => some tr
  | _ => none

/-- Tx-cache drain loop of Blockchain::commit: every cached pair is
removed; the envelope goes to the pool only when its hash is not already
in the persistent transactions table. -/
def drainCache : Schema → List (Nat × SignedTx) → Schema × List (Nat × SignedTx)
  | s, [] => (s, [])
  | s, p :: rest =>
    drainCache
      (if (getA s.transactions p.1).isSome then s
       else Schema.add_transaction_into_pool s p.2)
      rest

/-- Pre-drain steps of Blockchain::commit on the reopened fork: append
the precommits, clear the consensus message cache, and add the tx count
of the last block to the running transaction counter. -/
def commitPre (patch : Schema) (block_hash : Nat) (precommitList : List Nat) : Schema :=
  let s := (Fork.ofStore patch).working
  let pcs := putA s.precommits block_hash ((getA s.precommits block_hash).getD [] ++ precommitList)
  let s1 := { s with precommits := pcs }
  let s2 := { s1 with consensus_messages_cache := ([] : List Nat) }
  let cnt := s2.transaction_count + (Schema.last_block s2).tx_count
  { s2 with transaction_count := cnt }

/-- Blockchain::commit: reopen the patch as a fork, append the
precommits, clear the consensus message cache, update the running
transaction count from the last block, drain the tx-cache into the
mempool, merge, and invoke after_commit for every service in registry
iteration order.  The returned triple is the merged store, the drained
tx-cache, and the after_commit invocation trace (service ids in
invocation order). -/
def Blockchain.commit (bc : Blockchain) (patch : Schema) (block_hash : Nat)
    (precommitList : List Nat) (tx_cache : List (Nat × SignedTx)) :
    Schema × List (Nat × SignedTx) × List Nat :=
  let d := drainCache (commitPre patch block_hash precommitList) tx_cache
  (Fork.into_patch ⟨d.1, d.1⟩, d.2, bc.services.map Service.service_id)

/-- Genesis configuration handed to initialization
(genesis::GenesisConfig). -/
structure GenesisConfig where
  validator_keys : List Nat
  consensus : Nat
deriving DecidableEq

/-- Result of genesis initialization: the fatal duplicate-name panic, a
propagated storage failure, or success with the resulting store. -/
inductive GenesisOut where
  | dup_service_name
  | storage_fatal (descr : Nat)
  | ok (store : Schema)
deriving DecidableEq

/-- Service-initialization loop of Blockchain::create_genesis_block:
each service initializes on the fork and contributes its name-keyed
configuration blob; a duplicate name is the fatal panic. -/
def genesisInitServices : List Service → Fork → List (Nat × Nat) →
    Option (Fork × List (Nat × Nat))
  | [], fork, acc => some (fork, acc)
  | svc :: rest, fork, acc =>
    let run := svc.init_hook fork.working
    if acc.any (fun p => p.1 == svc.service_name) then none
    else genesisInitServices rest ⟨fork.flushed, Schema.applyKv fork.working run.1⟩
        (acc ++ [(svc.service_name, run.2)])

/-- Blockchain::create_genesis_block: initialize the services on a fork,
return early when a height-0 block already exists on the fork, commit
the assembled configuration, merge, and build and merge block 0 with
proposer 0 and no transactions. -/
def Blockchain.create_genesis_block (bc : Blockchain) (store : Schema)
    (cfg : GenesisConfig) : GenesisOut :=
  match genesisInitServices bc.services (Fork.ofStore store) [] with
  | none => .dup_service_name
  | some fs =>
    if (fs.1.working.block_hashes_by_height.get? 0).isSome then .ok store
    else
      let config_propose : StoredConfiguration :=
        ⟨Hash.zero, 0, cfg.validator_keys, cfg.consensus, fs.2⟩
      let cfgs := fs.1.working.configs ++ [config_propose]
      let s1 := { fs.1.working with configs := cfgs }
      match bc.create_patch s1 0 0 [] [] with
      | .ok _ patch _ _ => .ok patch
      | .fatal d => .storage_fatal d
      | .builder_bug => .storage_fatal 0

/-- Blockchain::initialize (renamed init_genesis): create and commit the
genesis block only when no block has been committed yet. -/
def Blockchain.init_genesis (bc : Blockchain) (store : Schema)
    (cfg : GenesisConfig) : GenesisOut :=
  if store.block_hashes_by_height.isEmpty then bc.create_genesis_block store cfg
  else .ok store

/-- Store component of a genesis result. -/
def genOut : GenesisOut → Option Schema
  | .ok s => some s
  | _ => none

/-
Concrete instances used by the witness and counterexample theorems.
-/

/-- Service whose before_commit hook writes its own id at key 0 of its
schema and whose state hash exposes that cell.  Two such services read
and write a table of the same name, which the framework does not forbid,
so their hook effects do not commute. -/
def svcW (i : Nat) : Service :=
  { service_id := i
    service_name := i
    init_hook := fun s => (s.service_kv, 0)
    tx_from_raw := fun _ => none
    before_commit := fun s => (putA s.service_kv 0 i, none)
    state_hash := fun s => [cryptoHash [(getA s.service_kv 0).getD 0]] }

/-- Registry holding services 1 and 2 in one HashMap iteration order. -/
def bcA : Blockchain := ⟨[svcW 1, svcW 2]⟩

/-- The same two services in the other HashMap iteration order. -/
def bcB : Blockchain := ⟨[svcW 2, svcW 1]⟩

/-- Signed envelope for service 7 with the given payload. -/
def txW (p : Nat) : SignedTx := ⟨⟨7, p⟩, 0, 0⟩

/-- Test service with id 7: payload 1 executes successfully, payload 2
returns a structured error, payload 3 panics with a non-storage cause,
payload 4 panics with a StorageError cause. -/
def svcT : Service :=
  { service_id := 7
    service_name := 70
    init_hook := fun s => (s.service_kv, 0)
    tx_from_raw := fun raw =>
      if raw.payload = 1 then some (fun s => (putA s.service_kv 1 100, .ok))
      else if raw.payload = 2 then some (fun s => (putA s.service_kv 1 200, .execErr 7 0))
      else if raw.payload = 3 then
        some (fun s => (putA s.service_kv 1 300, .panicked ⟨false, 3⟩))
      else if raw.payload = 4 then some (fun s => (s.service_kv, .panicked ⟨true, 5⟩))
      else none
    before_commit := fun s => (s.service_kv, none)
    state_hash := fun _ => [] }

/-- Registry holding only the test service. -/
def bcT : Blockchain := ⟨[svcT]⟩

/-- Service with id 3 whose before_commit hook panics with a
StorageError cause. -/
def svcS : Service :=
  { service_id := 3
    service_name := 30
    init_hook := fun s => (s.service_kv, 0)
    tx_from_raw := fun _ => none
    before_commit := fun s => (s.service_kv, some ⟨true, 9⟩)
    state_hash := fun _ => [] }

/-- Registry holding the storage-panicking service and the test
service. -/
def bcS : Blockchain := ⟨[svcS, svcT]⟩

/-- Genesis configuration used by the witnesses. -/
def cfgW : GenesisConfig := ⟨[41], 11⟩

/-- Store that already holds a committed block hash at height 0. -/
def storeG : Schema :=
  { emptySchema with block_hashes_by_height := [5], blocks := [(5, defaultBlock)] }

/-- Build output of the test registry at height 1 with two cached
transactions, used by the result-totality witness. -/
def outW5 : BuildOut :=
  bcT.create_patch emptySchema 0 1 [11, 12] [(11, txW 1), (12, txW 2)]

/-- Patch component of outW5. -/
def patchW5 : Schema := (buildPatch outW5).getD emptySchema

/-- Build output of the test registry at height 1 with no transactions,
used by the hook-guard witness. -/
def outW8 : BuildOut := bcT.create_patch emptySchema 0 1 [] []

/-- Build output of the test registry at height 0 on the empty store,
used by the genesis previous-hash witness. -/
def outW10 : BuildOut := bcT.create_patch emptySchema 3 0 [] []

/-- Patch component of outW10. -/
def patchW10 : Schema := (buildPatch outW10).getD emptySchema

/-- Block hash component of outW10. -/
def bhW10 : Nat := (buildHash outW10).getD 0

/-- Store produced by genesis initialization of the test registry from
the empty store. -/
def storeW9 : Schema := (genOut (bcT.init_genesis emptySchema cfgW)).getD emptySchema

/-- Patch state used by the commit witness: one pooled hash that is
absent from the transactions table, one persisted envelope. -/
def patchW6 : Schema :=
  { emptySchema with transactions_pool := [1],
                     transactions := [(SignedTx.hash (txW 6), txW 6)] }

/-- Tx-cache used by the commit witness: one envelope already persisted,
one new envelope. -/
def cacheW6 : List (Nat × SignedTx) :=
  [(SignedTx.hash (txW 6), txW 6), (SignedTx.hash (txW 5), txW 5)]

/-- Store and drained cache returned by the commit witness run. -/
def outW6 : Schema × List (Nat × SignedTx) × List Nat :=
  bcT.commit patchW6 0 [] cacheW6

/-
Helper lemmas.
-/

theorem getA_putA {α : Type} (m : List (Nat × α)) (k k' : Nat) (v : α) :
    getA (putA m k v) k' = if k = k' then some v else getA m k' := by
  induction m with
  | nil => simp [putA, getA]
  | cons p rest ih =>
    simp only [putA]
    by_cases h : p.1 = k
    · rw [if_pos h]
      by_cases h' : k = k'
      · simp [getA, h']
      · have hp : ¬ p.1 = k' := by rw [h]; exact h'
        simp [getA, h', hp]
    · rw [if_neg h]
      by_cases h' : p.1 = k'
      · have hk : ¬ k = k' := by
          intro c
          exact h (by rw [c, h'])
        simp [getA, h', hk]
      · simp [getA, h', ih]

theorem getA_putA_self {α : Type} (m : List (Nat × α)) (k : Nat) (v : α) :
    getA (putA m k v) k = some v := by
  simp [getA_putA]

theorem getBlockTxs_congr {s s' : Schema}
    (h : s.block_transactions = s'.block_transactions) (ht : Nat) :
    Schema.getBlockTxs s ht = Schema.getBlockTxs s' ht := by
  simp [Schema.getBlockTxs, h]

theorem recordTx_block_hashes (tx_hash : Nat) (raw : SignedTx)
    (res : TransactionResult) (height index : Nat) (s : Schema) :
    (recordTx tx_hash raw res height index s).block_hashes_by_height =
      s.block_hashes_by_height := rfl

theorem recordTx_blocks (tx_hash : Nat) (raw : SignedTx) (res : TransactionResult)
    (height index : Nat) (s : Schema) :
    (recordTx tx_hash raw res height index s).blocks = s.blocks := rfl

theorem recordTx_configs (tx_hash : Nat) (raw : SignedTx) (res : TransactionResult)
    (height index : Nat) (s : Schema) :
    (recordTx tx_hash raw res height index s).configs = s.configs := rfl

theorem recordTx_service_kv (tx_hash : Nat) (raw : SignedTx)
    (res : TransactionResult) (height index : Nat) (s : Schema) :
    (recordTx tx_hash raw res height index s).service_kv = s.service_kv := rfl

theorem recordTx_getBlockTxs_self (tx_hash : Nat) (raw : SignedTx)
    (res : TransactionResult) (height index : Nat) (s : Schema) :
    Schema.getBlockTxs (recordTx tx_hash raw res height index s) height =
      Schema.getBlockTxs s height ++ [tx_hash] := by
  simp [recordTx, Schema.getBlockTxs, Schema.commit_transaction, getA_putA_self]

theorem recordTx_results_get (tx_hash : Nat) (raw : SignedTx)
    (res : TransactionResult) (height index : Nat) (s : Schema) (k : Nat) :
    getA (recordTx tx_hash raw res height index s).transaction_results k =
      if tx_hash = k then some res else getA s.transaction_results k := by
  simp [recordTx, Schema.commit_transaction, getA_putA]

theorem recordTx_locations_get (tx_hash : Nat) (raw : SignedTx)
    (res : TransactionResult) (height index : Nat) (s : Schema) (k : Nat) :
    getA (recordTx tx_hash raw res height index s).transactions_locations k =
      if tx_hash = k then some ⟨height, index⟩
      else getA s.transactions_locations k := by
  simp [recordTx, Schema.commit_transaction, getA_putA]

theorem tx_from_raw_some (bc : Blockchain) (raw : RawTransaction)
    (handler : TxHandler) (h : bc.tx_from_raw raw = some handler) :
    ∃ svc, bc.find_service raw.service_id = some svc ∧
      svc.tx_from_raw raw = some handler := by
  unfold Blockchain.tx_from_raw at h
  cases hf : bc.find_service raw.service_id with
  | none => rw [hf] at h; exact absurd h (by simp)
  | some svc => rw [hf] at h; exact ⟨svc, rfl, h⟩

theorem execute_transaction_ok_shape (bc : Blockchain) (tx_hash height index : Nat)
    (fork : Fork) (cache : List (Nat × SignedTx)) (fork' : Fork)
    (cache' : List (Nat × SignedTx))
    (hok : bc.execute_transaction tx_hash height index fork cache = .ok fork' cache') :
    ∃ raw res base,
      (base = fork.flushed ∨ ∃ kv, base = Schema.applyKv fork.working kv) ∧
      fork' = ⟨recordTx tx_hash raw res height index base,
               recordTx tx_hash raw res height index base⟩ ∧
      cache' = removeA cache tx_hash := by
  cases hg : get_tx tx_hash fork.working.transactions cache with
  | none =>
    simp only [Blockchain.execute_transaction, hg] at hok
    exact absurd hok (by simp)
  | some raw =>
    cases hf : bc.find_service raw.raw.service_id with
    | none =>
      simp only [Blockchain.execute_transaction, hg, hf] at hok
      exact absurd hok (by simp)
    | some svc =>
      cases hd : bc.tx_from_raw raw.raw with
      | none =>
        simp only [Blockchain.execute_transaction, hg, hf, hd] at hok
        exact absurd hok (by simp)
      | some handler =>
        cases hout : (handler fork.working).2 with
        | ok =>
          simp only [Blockchain.execute_transaction, hg, hf, hd, hout, Fork.flush,
            ExecResult.ok.injEq] at hok
          exact ⟨raw, .success, Schema.applyKv fork.working (handler fork.working).1,
            Or.inr ⟨(handler fork.working).1, rfl⟩, hok.1.symm, hok.2.symm⟩
        | execErr c d =>
          simp only [Blockchain.execute_transaction, hg, hf, hd, hout, Fork.flush,
            Fork.rollback, ExecResult.ok.injEq] at hok
          exact ⟨raw, .failure c d, fork.flushed, Or.inl rfl, hok.1.symm, hok.2.symm⟩
        | panicked p =>
          rcases p with ⟨st, d⟩
          cases st with
          | true =>
            simp only [Blockchain.execute_transaction, hg, hf, hd, hout] at hok
            exact absurd hok (by simp)
          | false =>
            simp only [Blockchain.execute_transaction, hg, hf, hd, hout, Fork.flush,
              Fork.rollback, Bool.false_eq_true, if_false, ExecResult.ok.injEq] at hok
            exact ⟨raw, .panicked d, fork.flushed, Or.inl rfl,
              hok.1.symm, hok.2.symm⟩

theorem execTxs_ok (bc : Blockchain) (height : Nat) (hashes : List Nat) :
    ∀ (index : Nat) (fork : Fork) (cache : List (Nat × SignedTx)) (fork' : Fork)
      (cache' : List (Nat × SignedTx)),
      bc.execTxs height hashes index fork cache = .ok fork' cache' →
      fork.working = fork.flushed →
      hashes.Nodup →
      fork'.working = fork'.flushed ∧
      fork'.working.block_hashes_by_height = fork.working.block_hashes_by_height ∧
      Schema.getBlockTxs fork'.working height =
        Schema.getBlockTxs fork.working height ++ hashes ∧
      (∀ k, k ∉ hashes →
        getA fork'.working.transaction_results k =
          getA fork.working.transaction_results k ∧
        getA fork'.working.transactions_locations k =
          getA fork.working.transactions_locations k) ∧
      (∀ i, (hi : i < hashes.length) →
        (getA fork'.working.transaction_results (hashes.get ⟨i, hi⟩)).isSome ∧
        getA fork'.working.transactions_locations (hashes.get ⟨i, hi⟩) =
          some ⟨height, index + i⟩) := by
  induction hashes with
  | nil =>
    intro index fork cache fork' cache' hrun hwf _
    simp only [Blockchain.execTxs, ExecResult.ok.injEq] at hrun
    obtain ⟨h1, _⟩ := hrun
    subst h1
    exact ⟨hwf, rfl, by simp, fun k _ => ⟨rfl, rfl⟩,
      fun i hi => absurd hi (Nat.not_lt_zero i)⟩
  | cons h rest ih =>
    intro index fork cache fork' cache' hrun hwf hnodup
    simp only [Blockchain.execTxs] at hrun
    cases hs : bc.execute_transaction h height index fork cache with
    | fatal_storage d =>
      simp only [hs] at hrun
      exact absurd hrun (by simp)
    | execution_error =>
      simp only [hs] at hrun
      exact absurd hrun (by simp)
    | ok fork1 cache1 =>
      simp only [hs] at hrun
      obtain ⟨raw, res, base, hbase, hfork1, _⟩ :=
        execute_transaction_ok_shape bc h height index fork cache fork1 cache1 hs
      have hbase4 : base.block_transactions = fork.working.block_transactions ∧
          base.transaction_results = fork.working.transaction_results ∧
          base.transactions_locations = fork.working.transactions_locations ∧
          base.block_hashes_by_height = fork.working.block_hashes_by_height := by
        rcases hbase with h1 | ⟨kv, h1⟩ <;> subst h1
        · rw [hwf]; exact ⟨rfl, rfl, rfl, rfl⟩
        · exact ⟨rfl, rfl, rfl, rfl⟩
      have hf1w : fork1.working = recordTx h raw res height index base := by
        rw [hfork1]
      have hf1wf : fork1.working = fork1.flushed := by rw [hfork1]
      have hhr : h ∉ rest := (List.nodup_cons.mp hnodup).1
      have hrestnd : rest.Nodup := (List.nodup_cons.mp hnodup).2
      obtain ⟨ih1, ih2, ih3, ih4, ih5⟩ :=
        ih (index + 1) fork1 cache1 fork' cache' hrun hf1wf hrestnd
      refine ⟨ih1, ?_, ?_, ?_, ?_⟩
      · rw [ih2, hf1w, recordTx_block_hashes, hbase4.2.2.2]
      · rw [ih3, hf1w, recordTx_getBlockTxs_self,
          getBlockTxs_congr hbase4.1 height]
        simp
      · intro k hk
        have hk1 : k ≠ h := fun c => hk (by rw [c]; exact List.mem_cons_self h rest)
        have hk2 : k ∉ rest := fun c => hk (List.mem_cons_of_mem h c)
        obtain ⟨p1, p2⟩ := ih4 k hk2
        constructor
        · rw [p1, hf1w, recordTx_results_get, if_neg (fun c => hk1 c.symm),
            hbase4.2.1]
        · rw [p2, hf1w, recordTx_locations_get, if_neg (fun c => hk1 c.symm),
            hbase4.2.2.1]
      · intro i hi
        cases i with
        | zero =>
          have hget : (h :: rest).get ⟨0, hi⟩ = h := rfl
          rw [hget]
          obtain ⟨p1, p2⟩ := ih4 h hhr
          constructor
          · rw [p1, hf1w, recordTx_results_get, if_pos rfl]
            rfl
          · rw [p2, hf1w, recordTx_locations_get, if_pos rfl, Nat.add_zero]
        | succ j =>
          have hj : j < rest.length := by simpa using hi
          have hget : (h :: rest).get ⟨j + 1, hi⟩ = rest.get ⟨j, hj⟩ := rfl
          rw [hget]
          obtain ⟨q1, q2⟩ := ih5 j hj
          have harith : index + 1 + j = index + (j + 1) := by omega
          exact ⟨q1, by rw [q2, harith]⟩

theorem applyKv_applyKv (s : Schema) (a b : List (Nat × Nat)) :
    Schema.applyKv (Schema.applyKv s a) b = Schema.applyKv s b := rfl

theorem applyKv_self (s : Schema) : Schema.applyKv s s.service_kv = s := rfl

theorem before_commit_ok_shape (svc : Service) (fork fork1 : Fork)
    (hok : before_commit svc fork = .ok fork1)
    (hwf : fork.working = fork.flushed) :
    fork1.working = fork1.flushed ∧
    fork1.working = Schema.applyKv fork.working fork1.working.service_kv := by
  cases hp : (svc.before_commit fork.working).2 with
  | none =>
    simp only [before_commit, hp, Fork.flush, HookRes.ok.injEq] at hok
    rw [← hok]
    exact ⟨rfl, rfl⟩
  | some p =>
    rcases p with ⟨st, d⟩
    cases st with
    | true =>
      simp only [before_commit, hp] at hok
      exact absurd hok (by simp)
    | false =>
      simp only [before_commit, hp, Bool.false_eq_true, if_false, Fork.rollback,
        HookRes.ok.injEq] at hok
      rw [← hok]
      refine ⟨rfl, ?_⟩
      rw [← hwf]
      exact (applyKv_self fork.working).symm

theorem runHooks_zero (l : List Service) (fork : Fork) :
    runHooks 0 l fork = .ok fork [] := by
  induction l with
  | nil => rfl
  | cons svc rest ih => simp [runHooks, ih]

theorem runHooks_trace (height : Nat) (l : List Service) :
    ∀ (fork fork' : Fork) (tr : List Nat),
      runHooks height l fork = .ok fork' tr →
      tr = if 0 < height then l.map Service.service_id else [] := by
  induction l with
  | nil =>
    intro fork fork' tr hrun
    simp only [runHooks, HooksRes.ok.injEq] at hrun
    rw [← hrun.2]
    simp
  | cons svc rest ih =>
    intro fork fork' tr hrun
    by_cases h0 : 0 < height
    · simp only [runHooks, if_pos h0] at hrun
      cases hb : before_commit svc fork with
      | fatal d =>
        simp only [hb] at hrun
        exact absurd hrun (by simp)
      | ok fork1 =>
        simp only [hb] at hrun
        cases hr : runHooks height rest fork1 with
        | fatal d =>
          simp only [hr] at hrun
          exact absurd hrun (by simp)
        | ok fork2 tr2 =>
          simp only [hr, HooksRes.ok.injEq] at hrun
          rw [← hrun.2, ih fork1 fork2 tr2 hr, if_pos h0, if_pos h0]
          simp
    · simp only [runHooks, if_neg h0] at hrun
      rw [ih fork fork' tr hrun, if_neg h0, if_neg h0]

theorem runHooks_ok_kv (height : Nat) (l : List Service) :
    ∀ (fork fork' : Fork) (tr : List Nat),
      runHooks height l fork = .ok fork' tr →
      fork.working = fork.flushed →
      fork'.working = fork'.flushed ∧
      fork'.working = Schema.applyKv fork.working fork'.working.service_kv := by
  induction l with
  | nil =>
    intro fork fork' tr hrun hwf
    simp only [runHooks, HooksRes.ok.injEq] at hrun
    rw [← hrun.1]
    exact ⟨hwf, rfl⟩
  | cons svc rest ih =>
    intro fork fork' tr hrun hwf
    by_cases h0 : 0 < height
    · simp only [runHooks, if_pos h0] at hrun
      cases hb : before_commit svc fork with
      | fatal d =>
        simp only [hb] at hrun
        exact absurd hrun (by simp)
      | ok fork1 =>
        simp only [hb] at hrun
        cases hr : runHooks height rest fork1 with
        | fatal d =>
          simp only [hr] at hrun
          exact absurd hrun (by simp)
        | ok fork2 tr2 =>
          simp only [hr, HooksRes.ok.injEq] at hrun
          obtain ⟨hbw, hbk⟩ := before_commit_ok_shape svc fork fork1 hb hwf
          obtain ⟨h1, h2⟩ := ih fork1 fork2 tr2 hr hbw
          rw [← hrun.1]
          refine ⟨h1, ?_⟩
          calc fork2.working
              = Schema.applyKv fork1.working fork2.working.service_kv := h2
            _ = Schema.applyKv (Schema.applyKv fork.working fork1.working.service_kv)
                  fork2.working.service_kv := by rw [← hbk]
            _ = Schema.applyKv fork.working fork2.working.service_kv :=
                  applyKv_applyKv fork.working fork1.working.service_kv
                    fork2.working.service_kv
    · simp only [runHooks, if_neg h0] at hrun
      exact ih fork fork' tr hrun hwf

theorem create_patch_ok (bc : Blockchain) (store : Schema) (pid height : Nat)
    (hashes : List Nat) (cache : List (Nat × SignedTx)) (bh : Nat) (patch : Schema)
    (cache' : List (Nat × SignedTx)) (tr : List Nat)
    (hok : bc.create_patch store pid height hashes cache = .ok bh patch cache' tr) :
    ∃ fork1 cache1 fork2,
      bc.execTxs height hashes 0 (Fork.ofStore store) cache = .ok fork1 cache1 ∧
      runHooks height bc.services fork1 = .ok fork2 tr ∧
      cache' = cache1 ∧
      bh = (finalizeBlock bc pid height hashes.length (Schema.last_hash store) fork2).1 ∧
      patch = (finalizeBlock bc pid height hashes.length (Schema.last_hash store) fork2).2 := by
  cases he : bc.execTxs height hashes 0 (Fork.ofStore store) cache with
  | fatal_storage d =>
    simp only [Blockchain.create_patch, he] at hok
    exact absurd hok (by simp)
  | execution_error =>
    simp only [Blockchain.create_patch, he] at hok
    exact absurd hok (by simp)
  | ok fork1 cache1 =>
    cases hh : runHooks height bc.services fork1 with
    | fatal d =>
      simp only [Blockchain.create_patch, he, hh] at hok
      exact absurd hok (by simp)
    | ok fork2 tr2 =>
      simp only [Blockchain.create_patch, he, hh, BuildOut.ok.injEq] at hok
      obtain ⟨h1, h2, h3, h4⟩ := hok
      subst h4
      exact ⟨fork1, cache1, fork2, rfl, hh, h3.symm, h1.symm, h2.symm⟩

theorem finalizeBlock_results (bc : Blockchain) (pid ht ntx lh : Nat) (fork : Fork) :
    ((finalizeBlock bc pid ht ntx lh fork).2).transaction_results =
      fork.working.transaction_results := rfl

theorem finalizeBlock_locations (bc : Blockchain) (pid ht ntx lh : Nat) (fork : Fork) :
    ((finalizeBlock bc pid ht ntx lh fork).2).transactions_locations =
      fork.working.transactions_locations := rfl

theorem finalizeBlock_block_transactions (bc : Blockchain) (pid ht ntx lh : Nat)
    (fork : Fork) :
    ((finalizeBlock bc pid ht ntx lh fork).2).block_transactions =
      fork.working.block_transactions := rfl

theorem finalizeBlock_bhh (bc : Blockchain) (pid ht ntx lh : Nat) (fork : Fork) :
    ((finalizeBlock bc pid ht ntx lh fork).2).block_hashes_by_height =
      fork.working.block_hashes_by_height ++
        [(finalizeBlock bc pid ht ntx lh fork).1] := rfl

theorem finalizeBlock_entry (bc : Blockchain) (pid ht ntx lh : Nat) (fork : Fork) :
    ∃ th sh, getA ((finalizeBlock bc pid ht ntx lh fork).2).blocks
        (finalizeBlock bc pid ht ntx lh fork).1 = some ⟨pid, ht, ntx, lh, th, sh⟩ := by
  exact ⟨_, _, getA_putA_self _ _ _⟩

theorem create_patch_h0 (bc : Blockchain) (s : Schema) (pid : Nat)
    (cache : List (Nat × SignedTx)) :
    ∃ bh patch, bc.create_patch s pid 0 [] cache = .ok bh patch cache [] ∧
      patch.block_hashes_by_height = s.block_hashes_by_height ++ [bh] := by
  refine ⟨(finalizeBlock bc pid 0 0 (Schema.last_hash s) (Fork.ofStore s)).1,
    (finalizeBlock bc pid 0 0 (Schema.last_hash s) (Fork.ofStore s)).2, ?_, ?_⟩
  · simp only [Blockchain.create_patch, Blockchain.execTxs, runHooks_zero,
      List.length_nil]
  · exact finalizeBlock_bhh bc pid 0 0 (Schema.last_hash s) (Fork.ofStore s)

theorem exec_storage_fatal_aux (bc : Blockchain) (tx_hash height index : Nat)
    (fork : Fork) (cache : List (Nat × SignedTx)) (raw : SignedTx)
    (handler : TxHandler) (d : Nat)
    (hresolve : get_tx tx_hash fork.working.transactions cache = some raw)
    (hdispatch : bc.tx_from_raw raw.raw = some handler)
    (hout : (handler fork.working).2 = .panicked ⟨true, d⟩) :
    bc.execute_transaction tx_hash height index fork cache = .fatal_storage d := by
  obtain ⟨svc, hf, _⟩ := tx_from_raw_some bc raw.raw handler hdispatch
  simp [Blockchain.execute_transaction, hresolve, hf, hdispatch, hout]

theorem exec_panic_recorded_aux (bc : Blockchain) (tx_hash height index : Nat)
    (fork : Fork) (cache : List (Nat × SignedTx)) (raw : SignedTx)
    (handler : TxHandler) (d : Nat)
    (hresolve : get_tx tx_hash fork.working.transactions cache = some raw)
    (hdispatch : bc.tx_from_raw raw.raw = some handler)
    (hout : (handler fork.working).2 = .panicked ⟨false, d⟩) :
    bc.execute_transaction tx_hash height index fork cache =
      .ok ⟨recordTx tx_hash raw (.panicked d) height index fork.flushed,
           recordTx tx_hash raw (.panicked d) height index fork.flushed⟩
        (removeA cache tx_hash) := by
  obtain ⟨svc, hf, _⟩ := tx_from_raw_some bc raw.raw handler hdispatch
  simp [Blockchain.execute_transaction, hresolve, hf, hdispatch, hout, Fork.flush,
    Fork.rollback]

theorem hook_storage_fatal_aux (svc : Service) (fork : Fork)
    (kv : List (Nat × Nat)) (d : Nat)
    (hhook : svc.before_commit fork.working = (kv, some ⟨true, d⟩)) :
    before_commit svc fork = .fatal d := by
  simp [before_commit, hhook]

theorem add_pool_transactions (s : Schema) (t : SignedTx) :
    (Schema.add_transaction_into_pool s t).transactions = s.transactions := by
  unfold Schema.add_transaction_into_pool
  split <;> rfl

theorem mem_add_pool (s : Schema) (t : SignedTx) (h : Nat) :
    h ∈ (Schema.add_transaction_into_pool s t).transactions_pool ↔
      h ∈ s.transactions_pool ∨ h = SignedTx.hash t := by
  unfold Schema.add_transaction_into_pool
  by_cases hmem : SignedTx.hash t ∈ s.transactions_pool
  · rw [if_pos hmem]
    constructor
    · exact Or.inl
    · rintro (hl | hr)
      · exact hl
      · rw [hr]; exact hmem
  · rw [if_neg hmem]
    simp

theorem drainCache_spec (cache : List (Nat × SignedTx)) :
    ∀ s : Schema,
      (drainCache s cache).2 = [] ∧
      (drainCache s cache).1.transactions = s.transactions ∧
      ∀ h, h ∈ (drainCache s cache).1.transactions_pool ↔
        (h ∈ s.transactions_pool ∨
          ∃ p, p ∈ cache ∧ SignedTx.hash p.2 = h ∧ getA s.transactions p.1 = none) := by
  induction cache with
  | nil =>
    intro s
    refine ⟨rfl, rfl, fun h => ?_⟩
    simp [drainCache]
  | cons p rest ih =>
    intro s
    by_cases hc : (getA s.transactions p.1).isSome
    · have hred : drainCache s (p :: rest) = drainCache s rest := by
        simp [drainCache, hc]
      obtain ⟨i1, i2, i3⟩ := ih s
      refine ⟨by rw [hred]; exact i1, by rw [hred]; exact i2, fun h => ?_⟩
      rw [hred, i3 h]
      constructor
      · rintro (hl | ⟨q, hq, hh, hn⟩)
        · exact Or.inl hl
        · exact Or.inr ⟨q, List.mem_cons_of_mem p hq, hh, hn⟩
      · rintro (hl | ⟨q, hq, hh, hn⟩)
        · exact Or.inl hl
        · rcases List.mem_cons.mp hq with heq | hq'
          · rw [heq] at hn
            rw [hn] at hc
            exact absurd hc (by simp)
          · exact Or.inr ⟨q, hq', hh, hn⟩
    · have hnone : getA s.transactions p.1 = none :=
        Option.not_isSome_iff_eq_none.mp hc
      have hred : drainCache s (p :: rest) =
          drainCache (Schema.add_transaction_into_pool s p.2) rest := by
        simp [drainCache, hc]
      obtain ⟨i1, i2, i3⟩ := ih (Schema.add_transaction_into_pool s p.2)
      refine ⟨by rw [hred]; exact i1, ?_, fun h => ?_⟩
      · rw [hred, i2, add_pool_transactions]
      · rw [hred, i3 h]
        constructor
        · rintro (hl | ⟨q, hq, hh, hn⟩)
          · rcases (mem_add_pool s p.2 h).mp hl with h1 | h1
            · exact Or.inl h1
            · exact Or.inr ⟨p, List.mem_cons_self p rest, h1.symm, hnone⟩
          · rw [add_pool_transactions] at hn
            exact Or.inr ⟨q, List.mem_cons_of_mem p hq, hh, hn⟩
        · rintro (hl | ⟨q, hq, hh, hn⟩)
          · exact Or.inl ((mem_add_pool s p.2 h).mpr (Or.inl hl))
          · rcases List.mem_cons.mp hq with heq | hq'
            · rw [heq] at hh
              exact Or.inl ((mem_add_pool s p.2 h).mpr (Or.inr hh.symm))
            · refine Or.inr ⟨q, hq', hh, ?_⟩
              rw [add_pool_transactions]
              exact hn

theorem commitPre_transactions (p : Schema) (bh : Nat) (pcs : List Nat) :
    (commitPre p bh pcs).transactions = p.transactions := rfl

theorem commitPre_pool (p : Schema) (bh : Nat) (pcs : List Nat) :
    (commitPre p bh pcs).transactions_pool = p.transactions_pool := rfl

/-
Claim theorems.
-/

/-- C1: the claim states that two Blockchain instances constructed with
the same service set and given the same inputs return byte-identical
block hashes and merged states from create_patch.  The code iterates the
service registry, a std HashMap, whose iteration order is arbitrary and
differs between independent instances; when before_commit hooks of
different services do not commute, the two instances produce different
states and different block hashes.  This theorem evaluates create_patch
on two instances holding the same two services in the two possible
iteration orders and shows the outputs differ. -/
theorem create_patch_not_replica_deterministic :
    bcA.services.Perm bcB.services ∧
    buildHash (bcA.create_patch emptySchema 0 1 [] []) ≠
      buildHash (bcB.create_patch emptySchema 0 1 [] []) ∧
    (buildPatch (bcA.create_patch emptySchema 0 1 [] [])).map Schema.service_kv ≠
      (buildPatch (bcB.create_patch emptySchema 0 1 [] [])).map Schema.service_kv := by
  refine ⟨List.Perm.swap (svcW 2) (svcW 1) [], ?_, ?_⟩ <;> decide

/-- C2: the claim states that before_commit (in create_patch) and
after_commit (in commit) run once per registered service in ascending
service_id order.  The once-per-service part holds, but both loops
iterate the service registry HashMap in its arbitrary iteration order:
with the registry holding ids 1 and 2 in iteration order [2, 1] (a legal
HashMap order), both hook traces are [2, 1], which is not ascending. -/
theorem service_hooks_not_ascending :
    buildTrace (bcB.create_patch emptySchema 0 1 [] []) = some [2, 1] ∧
    (bcB.commit emptySchema 0 [] []).2.2 = [2, 1] ∧
    ¬ List.Sorted (fun a b => a ≤ b) ([2, 1] : List Nat) := by
  refine ⟨by decide, rfl, by decide⟩

/-- C3: a transaction whose execute returns a structured error or panics
with a non-storage cause leaves the fork at the preceding savepoint
(fork.flushed) with only the per-transaction bookkeeping of recordTx
added (result, envelope, location, block_transactions entry): the
resulting fork is a function of the savepoint alone, so the write set of
the failed execute is discarded and transactions executed later in the
block observe exactly the savepoint plus this bookkeeping.  The flushed
and working states coincide afterwards, re-establishing the savepoint
boundary. -/
theorem failed_transaction_isolation (bc : Blockchain) (tx_hash height index : Nat)
    (fork : Fork) (cache : List (Nat × SignedTx)) (raw : SignedTx)
    (handler : TxHandler) (outcome : ExecutionOutcome)
    (hresolve : get_tx tx_hash fork.working.transactions cache = some raw)
    (hdispatch : bc.tx_from_raw raw.raw = some handler)
    (hout : (handler fork.working).2 = outcome)
    (hfail : (∃ c d, outcome = .execErr c d) ∨ ∃ d, outcome = .panicked ⟨false, d⟩) :
    bc.execute_transaction tx_hash height index fork cache =
      .ok ⟨recordTx tx_hash raw (resultOf outcome) height index fork.flushed,
           recordTx tx_hash raw (resultOf outcome) height index fork.flushed⟩
        (removeA cache tx_hash) ∧
    (recordTx tx_hash raw (resultOf outcome) height index fork.flushed).service_kv =
      fork.flushed.service_kv ∧
    (recordTx tx_hash raw (resultOf outcome) height index
        fork.flushed).block_hashes_by_height =
      fork.flushed.block_hashes_by_height ∧
    getA (recordTx tx_hash raw (resultOf outcome) height index
        fork.flushed).transaction_results tx_hash = some (resultOf outcome) := by
  obtain ⟨svc, hf, _⟩ := tx_from_raw_some bc raw.raw handler hdispatch
  refine ⟨?_, recordTx_service_kv tx_hash raw (resultOf outcome) height index
      fork.flushed,
    recordTx_block_hashes tx_hash raw (resultOf outcome) height index fork.flushed,
    by rw [recordTx_results_get, if_pos rfl]⟩
  rcases hfail with ⟨c, d, ho⟩ | ⟨d, ho⟩ <;> subst ho <;>
    simp [Blockchain.execute_transaction, hresolve, hf, hdispatch, hout, Fork.flush,
      Fork.rollback, resultOf]

/-- C3 witness: the error-returning transaction of the test service on a
fork over the empty store. -/
theorem failed_transaction_isolation_spot :
    bcT.execute_transaction 12 1 0 (Fork.ofStore emptySchema) [(12, txW 2)] =
      .ok ⟨recordTx 12 (txW 2) (resultOf (.execErr 7 0)) 1 0 emptySchema,
           recordTx 12 (txW 2) (resultOf (.execErr 7 0)) 1 0 emptySchema⟩
        (removeA [(12, txW 2)] 12) ∧
    (recordTx 12 (txW 2) (resultOf (.execErr 7 0)) 1 0 emptySchema).service_kv =
      emptySchema.service_kv ∧
    (recordTx 12 (txW 2) (resultOf (.execErr 7 0)) 1 0
        emptySchema).block_hashes_by_height =
      emptySchema.block_hashes_by_height ∧
    getA (recordTx 12 (txW 2) (resultOf (.execErr 7 0)) 1 0
        emptySchema).transaction_results 12 = some (resultOf (.execErr 7 0)) :=
  failed_transaction_isolation bcT 12 1 0 (Fork.ofStore emptySchema) [(12, txW 2)]
    (txW 2) (fun s => (putA s.service_kv 1 200, .execErr 7 0)) (.execErr 7 0)
    rfl rfl rfl (Or.inl ⟨7, 0, rfl⟩)

/-- C4: a StorageError-caused panic in execute propagates out of the
executor fault barrier (and out of create_patch) instead of being
caught, and no result is recorded for the transaction; a StorageError
panic in before_commit likewise escapes the hook barrier and
create_patch; only non-storage panics are converted into recorded
panic-kind results. -/
theorem storage_fault_fatality (bc : Blockchain) :
    (∀ (tx_hash height index : Nat) (fork : Fork) (cache : List (Nat × SignedTx))
        (raw : SignedTx) (handler : TxHandler) (d : Nat),
      get_tx tx_hash fork.working.transactions cache = some raw →
      bc.tx_from_raw raw.raw = some handler →
      (handler fork.working).2 = .panicked ⟨true, d⟩ →
      bc.execute_transaction tx_hash height index fork cache = .fatal_storage d) ∧
    (∀ (store : Schema) (pid height tx_hash : Nat) (rest : List Nat)
        (cache : List (Nat × SignedTx)) (raw : SignedTx) (handler : TxHandler)
        (d : Nat),
      get_tx tx_hash store.transactions cache = some raw →
      bc.tx_from_raw raw.raw = some handler →
      (handler store).2 = .panicked ⟨true, d⟩ →
      bc.create_patch store pid height (tx_hash :: rest) cache = .fatal d) ∧
    (∀ (svc : Service) (fork : Fork) (kv : List (Nat × Nat)) (d : Nat),
      svc.before_commit fork.working = (kv, some ⟨true, d⟩) →
      before_commit svc fork = .fatal d) ∧
    (∀ (store : Schema) (pid height : Nat) (cache : List (Nat × SignedTx))
        (svc : Service) (tail : List Service) (kv : List (Nat × Nat)) (d : Nat),
      bc.services = svc :: tail → 0 < height →
      svc.before_commit store = (kv, some ⟨true, d⟩) →
      bc.create_patch store pid height [] cache = .fatal d) ∧
    (∀ (tx_hash height index : Nat) (fork : Fork) (cache : List (Nat × SignedTx))
        (raw : SignedTx) (handler : TxHandler) (d : Nat),
      get_tx tx_hash fork.working.transactions cache = some raw →
      bc.tx_from_raw raw.raw = some handler →
      (handler fork.working).2 = .panicked ⟨false, d⟩ →
      bc.execute_transaction tx_hash height index fork cache =
        .ok ⟨recordTx tx_hash raw (.panicked d) height index fork.flushed,
             recordTx tx_hash raw (.panicked d) height index fork.flushed⟩
          (removeA cache tx_hash) ∧
      getA (recordTx tx_hash raw (.panicked d) height index
          fork.flushed).transaction_results tx_hash = some (.panicked d)) := by
  refine ⟨?_, ?_, ?_, ?_, ?_⟩
  · intro tx_hash height index fork cache raw handler d h1 h2 h3
    exact exec_storage_fatal_aux bc tx_hash height index fork cache raw handler d
      h1 h2 h3
  · intro store pid height tx_hash rest cache raw handler d h1 h2 h3
    have he := exec_storage_fatal_aux bc tx_hash height 0 (Fork.ofStore store) cache
      raw handler d h1 h2 h3
    simp [Blockchain.create_patch, Blockchain.execTxs, he]
  · intro svc fork kv d hhook
    exact hook_storage_fatal_aux svc fork kv d hhook
  · intro store pid height cache svc tail kv d hserv hpos hhook
    have hb := hook_storage_fatal_aux svc (Fork.ofStore store) kv d hhook
    simp [Blockchain.create_patch, Blockchain.execTxs, hserv, runHooks,
      if_pos hpos, hb]
  · intro tx_hash height index fork cache raw handler d h1 h2 h3
    refine ⟨exec_panic_recorded_aux bc tx_hash height index fork cache raw handler d
      h1 h2 h3, ?_⟩
    rw [recordTx_results_get, if_pos rfl]

/-- C4 witness: storage-panicking transaction and storage-panicking
before_commit hook on the registry holding svcS and svcT. -/
theorem storage_fault_fatality_spot :
    bcS.execute_transaction 13 1 0 (Fork.ofStore emptySchema) [(13, txW 4)] =
      .fatal_storage 5 ∧
    bcS.create_patch emptySchema 0 1 [13] [(13, txW 4)] = .fatal 5 ∧
    before_commit svcS (Fork.ofStore emptySchema) = .fatal 9 ∧
    bcS.create_patch emptySchema 0 1 [] [] = .fatal 9 ∧
    bcS.execute_transaction 14 1 0 (Fork.ofStore emptySchema) [(14, txW 3)] =
      .ok ⟨recordTx 14 (txW 3) (.panicked 3) 1 0 emptySchema,
           recordTx 14 (txW 3) (.panicked 3) 1 0 emptySchema⟩
        (removeA [(14, txW 3)] 14) := by
  refine ⟨?_, ?_, ?_, ?_, ?_⟩
  · exact (storage_fault_fatality bcS).1 13 1 0 (Fork.ofStore emptySchema)
      [(13, txW 4)] (txW 4) (fun s => (s.service_kv, .panicked ⟨true, 5⟩)) 5
      rfl rfl rfl
  · exact (storage_fault_fatality bcS).2.1 emptySchema 0 1 13 [] [(13, txW 4)]
      (txW 4) (fun s => (s.service_kv, .panicked ⟨true, 5⟩)) 5 rfl rfl rfl
  · exact (storage_fault_fatality bcS).2.2.1 svcS (Fork.ofStore emptySchema)
      emptySchema.service_kv 9 rfl
  · exact (storage_fault_fatality bcS).2.2.2.1 emptySchema 0 1 [] svcS [svcT]
      emptySchema.service_kv 9 rfl (by decide) rfl
  · exact ((storage_fault_fatality bcS).2.2.2.2 14 1 0 (Fork.ofStore emptySchema)
      [(14, txW 3)] (txW 3) (fun s => (putA s.service_kv 1 300, .panicked ⟨false, 3⟩))
      3 rfl rfl rfl).1

/-- C5: after create_patch for a height with N resolvable transaction
hashes, the patch holds a transaction_results entry for every hash, a
transactions_locations entry (height, index) for each, and
block_transactions at the height is exactly the input list in input
order. -/
theorem create_patch_result_totality (bc : Blockchain) (store : Schema)
    (pid height : Nat) (hashes : List Nat) (cache : List (Nat × SignedTx))
    (bh : Nat) (patch : Schema) (cache' : List (Nat × SignedTx)) (tr : List Nat)
    (hnodup : hashes.Nodup)
    (hinit : Schema.getBlockTxs store height = [])
    (hok : bc.create_patch store pid height hashes cache = .ok bh patch cache' tr) :
    Schema.getBlockTxs patch height = hashes ∧
    (∀ h, h ∈ hashes → (getA patch.transaction_results h).isSome) ∧
    ∀ i, (hi : i < hashes.length) →
      getA patch.transactions_locations (hashes.get ⟨i, hi⟩) = some ⟨height, i⟩ := by
  obtain ⟨fork1, cache1, fork2, he, hh, hc, hbh, hpatch⟩ :=
    create_patch_ok bc store pid height hashes cache bh patch cache' tr hok
  obtain ⟨e1, e2, e3, e4, e5⟩ := execTxs_ok bc height hashes 0 (Fork.ofStore store)
    cache fork1 cache1 he rfl hnodup
  obtain ⟨k1, k2⟩ := runHooks_ok_kv height bc.services fork1 fork2 tr hh e1
  have hres : patch.transaction_results = fork1.working.transaction_results := by
    rw [hpatch, finalizeBlock_results, k2]
    rfl
  have hloc : patch.transactions_locations = fork1.working.transactions_locations := by
    rw [hpatch, finalizeBlock_locations, k2]
    rfl
  have hbt : patch.block_transactions = fork1.working.block_transactions := by
    rw [hpatch, finalizeBlock_block_transactions, k2]
    rfl
  refine ⟨?_, ?_, ?_⟩
  · rw [getBlockTxs_congr hbt height, e3,
      show Schema.getBlockTxs (Fork.ofStore store).working height = [] from hinit]
    simp
  · intro h hmem
    obtain ⟨n, hn⟩ := List.get_of_mem hmem
    rw [← hn, hres]
    exact (e5 n.1 n.2).1
  · intro i hi
    rw [hloc]
    have := (e5 i hi).2
    rw [this]
    simp

/-- C5 witness: two cached transactions executed at height 1. -/
theorem create_patch_result_totality_spot :
    Schema.getBlockTxs patchW5 1 = [11, 12] ∧
    (getA patchW5.transaction_results 11).isSome ∧
    (getA patchW5.transaction_results 12).isSome ∧
    getA patchW5.transactions_locations 11 = some ⟨1, 0⟩ ∧
    getA patchW5.transactions_locations 12 = some ⟨1, 1⟩ := by
  have H := create_patch_result_totality bcT emptySchema 0 1 [11, 12]
    [(11, txW 1), (12, txW 2)] ((buildHash outW5).getD 0) patchW5
    ((buildCache outW5).getD []) ((buildTrace outW5).getD [])
    (by decide) rfl rfl
  exact ⟨H.1, H.2.1 11 (by decide), H.2.1 12 (by decide),
    H.2.2 0 (by decide), H.2.2 1 (by decide)⟩

/-- C6: commit drains the tx-cache completely; a cached envelope ends up
in transactions_pool exactly when its hash is not already in the
persistent transactions table; and, provided the pool and the
transactions table of the incoming patch are disjoint, no hash is in
both after commit. -/
theorem commit_pool_exclusivity (bc : Blockchain) (patch : Schema) (bh : Nat)
    (pcs : List Nat) (cache : List (Nat × SignedTx))
    (hwf : ∀ p ∈ cache, SignedTx.hash p.2 = p.1)
    (hdisj : ∀ h ∈ patch.transactions_pool, getA patch.transactions h = none) :
    (bc.commit patch bh pcs cache).2.1 = [] ∧
    (∀ p ∈ cache,
      (p.1 ∈ (bc.commit patch bh pcs cache).1.transactions_pool ↔
        getA patch.transactions p.1 = none)) ∧
    ∀ h ∈ (bc.commit patch bh pcs cache).1.transactions_pool,
      getA (bc.commit patch bh pcs cache).1.transactions h = none := by
  obtain ⟨d1, d2, d3⟩ := drainCache_spec cache (commitPre patch bh pcs)
  have hres1 : (bc.commit patch bh pcs cache).1 =
      (drainCache (commitPre patch bh pcs) cache).1 := rfl
  have hres2 : (bc.commit patch bh pcs cache).2.1 =
      (drainCache (commitPre patch bh pcs) cache).2 := rfl
  refine ⟨by rw [hres2]; exact d1, ?_, ?_⟩
  · intro p hp
    rw [hres1, d3 p.1, commitPre_pool, commitPre_transactions]
    constructor
    · rintro (hl | ⟨q, hq, hh, hn⟩)
      · exact hdisj p.1 hl
      · rw [hwf q hq] at hh
        rw [← hh]
        exact hn
    · intro hn
      exact Or.inr ⟨p, hp, hwf p hp, hn⟩
  · intro h hmem
    rw [hres1] at hmem ⊢
    rw [d2, commitPre_transactions]
    have hiff := (d3 h).mp hmem
    rw [commitPre_pool, commitPre_transactions] at hiff
    rcases hiff with hl | ⟨q, hq, hh, hn⟩
    · exact hdisj h hl
    · rw [hwf q hq] at hh
      rw [← hh]
      exact hn

/-- C6 witness: a pooled hash absent from transactions, one cached
envelope already persisted, one new cached envelope. -/
theorem commit_pool_exclusivity_spot :
    outW6.2.1 = [] ∧
    (SignedTx.hash (txW 5) ∈ outW6.1.transactions_pool ↔
      getA patchW6.transactions (SignedTx.hash (txW 5)) = none) ∧
    (SignedTx.hash (txW 6) ∈ outW6.1.transactions_pool ↔
      getA patchW6.transactions (SignedTx.hash (txW 6)) = none) ∧
    getA outW6.1.transactions 1 = none := by
  have H := commit_pool_exclusivity bcT patchW6 0 [] cacheW6 (by decide) (by decide)
  exact ⟨H.1, H.2.1 (SignedTx.hash (txW 5), txW 5) (by decide),
    H.2.1 (SignedTx.hash (txW 6), txW 6) (by decide), H.2.2 1 (by decide)⟩

/-- C7: service_table_unique_key hashes exactly the 4-byte string formed
by the little-endian 16-bit encoding of service_id followed by the
little-endian 16-bit encoding of table_idx, for ids and indices
representable in 16 bits; the string has length 4 and holds bytes. -/
theorem service_table_unique_key_le16 (sid idx : Nat) (h1 : sid < 65536)
    (h2 : idx < 65536) :
    service_table_unique_key sid idx = cryptoHash (le16 sid ++ le16 idx) ∧
    (le16 sid ++ le16 idx).length = 4 ∧
    ∀ b ∈ le16 sid ++ le16 idx, b < 256 := by
  refine ⟨rfl, rfl, ?_⟩
  intro b hb
  simp [le16] at hb
  rcases hb with h | h | h | h <;> omega

/-- C7 witness at service_id 5 and table_idx 3. -/
theorem service_table_unique_key_le16_spot :
    5 < 65536 ∧ 3 < 65536 ∧
    service_table_unique_key 5 3 = cryptoHash (le16 5 ++ le16 3) :=
  ⟨by decide, by decide, (service_table_unique_key_le16 5 3 (by decide) (by decide)).1⟩

/-- C8: the before_commit hook trace of a successful create_patch is
the full registry (one invocation per registered service, in registry
iteration order) exactly when the height is positive, and empty at the
genesis height 0. -/
theorem before_commit_genesis_guard (bc : Blockchain) (store : Schema)
    (pid height : Nat) (hashes : List Nat) (cache : List (Nat × SignedTx))
    (bh : Nat) (patch : Schema) (cache' : List (Nat × SignedTx)) (tr : List Nat)
    (hok : bc.create_patch store pid height hashes cache = .ok bh patch cache' tr) :
    tr = if 0 < height then bc.services.map Service.service_id else [] := by
  obtain ⟨fork1, cache1, fork2, he, hh, _, _, _⟩ :=
    create_patch_ok bc store pid height hashes cache bh patch cache' tr hok
  exact runHooks_trace height bc.services fork1 fork2 tr hh

/-- C8 witness: the test registry at height 1. -/
theorem before_commit_genesis_guard_spot :
    (buildTrace outW8).getD [] =
      if 0 < 1 then bcT.services.map Service.service_id else [] :=
  before_commit_genesis_guard bcT emptySchema 0 1 [] [] ((buildHash outW8).getD 0)
    ((buildPatch outW8).getD emptySchema) ((buildCache outW8).getD [])
    ((buildTrace outW8).getD []) rfl

/-- C9: when a block at height 0 already exists, init_genesis returns
success with the store unchanged, for any configuration; and whenever
init_genesis succeeds, running it again (with any configuration) leaves
the store unchanged. -/
theorem init_genesis_idempotent (bc : Blockchain) (store : Schema)
    (cfg : GenesisConfig) :
    (store.block_hashes_by_height ≠ [] →
      ∀ cfg2, bc.init_genesis store cfg2 = .ok store) ∧
    ∀ s', bc.init_genesis store cfg = .ok s' →
      ∀ cfg2, bc.init_genesis s' cfg2 = .ok s' := by
  have hne : ∀ (t : Schema) (cfg2 : GenesisConfig), t.block_hashes_by_height ≠ [] →
      bc.init_genesis t cfg2 = .ok t := by
    intro t cfg2 h
    cases hl : t.block_hashes_by_height with
    | nil => exact absurd hl h
    | cons a l => simp [Blockchain.init_genesis, hl]
  refine ⟨fun h cfg2 => hne store cfg2 h, ?_⟩
  intro s' hok cfg2
  cases hl : store.block_hashes_by_height with
  | cons a l =>
    have h1 : bc.init_genesis store cfg = .ok store :=
      hne store cfg (by rw [hl]; exact List.cons_ne_nil a l)
    rw [h1] at hok
    have hs : store = s' := by simpa using hok
    subst hs
    exact hne store cfg2 (by rw [hl]; exact List.cons_ne_nil a l)
  | nil =>
    have hred : ∀ c : GenesisConfig,
        bc.init_genesis store c = bc.create_genesis_block store c := by
      intro c
      simp [Blockchain.init_genesis, hl]
    rw [hred cfg] at hok
    cases hg : genesisInitServices bc.services (Fork.ofStore store) [] with
    | none =>
      simp only [Blockchain.create_genesis_block, hg] at hok
      exact absurd hok (by simp)
    | some fs =>
      by_cases hchk : (fs.1.working.block_hashes_by_height.get? 0).isSome
      · have hcg : ∀ c : GenesisConfig, bc.create_genesis_block store c = .ok store := by
          intro c
          simp only [Blockchain.create_genesis_block, hg]
          rw [if_pos hchk]
        rw [hcg cfg] at hok
        have hs : store = s' := by simpa using hok
        subst hs
        rw [hred cfg2, hcg cfg2]
      · have hnil : fs.1.working.block_hashes_by_height = [] := by
          cases hx : fs.1.working.block_hashes_by_height with
          | nil => rfl
          | cons b t =>
            rw [hx] at hchk
            exact absurd rfl hchk
        obtain ⟨bh, patch, hcp, hbhh⟩ := create_patch_h0 bc
          { fs.1.working with configs := fs.1.working.configs ++
              [⟨Hash.zero, 0, cfg.validator_keys, cfg.consensus, fs.2⟩] } 0 []
        have hcg : bc.create_genesis_block store cfg = .ok patch := by
          simp only [Blockchain.create_genesis_block, hg]
          rw [if_neg hchk, hcp]
        rw [hcg] at hok
        have hs : patch = s' := by simpa using hok
        subst hs
        apply hne patch cfg2
        rw [hbhh]
        simp [hnil]

/-- C9 witness: a store already holding a genesis hash, and the store
produced by initializing the test registry from the empty store. -/
theorem init_genesis_idempotent_spot :
    bcT.init_genesis storeG cfgW = .ok storeG ∧
    bcT.init_genesis storeW9 cfgW = .ok storeW9 :=
  ⟨(init_genesis_idempotent bcT storeG cfgW).1 (by decide) cfgW,
   (init_genesis_idempotent bcT emptySchema cfgW).2 storeW9 rfl cfgW⟩

/-- C10: on a store with no committed block, last_hash returns the
default all-zero hash instead of panicking, and a height-0 create_patch
stores a block header whose previous-block-hash field is that zero
hash. -/
theorem last_hash_default_genesis_prev (bc : Blockchain) (store : Schema)
    (pid : Nat) (hashes : List Nat) (cache : List (Nat × SignedTx)) (bh : Nat)
    (patch : Schema) (cache' : List (Nat × SignedTx)) (tr : List Nat)
    (hempty : store.block_hashes_by_height = [])
    (hok : bc.create_patch store pid 0 hashes cache = .ok bh patch cache' tr) :
    Schema.last_hash store = Hash.zero ∧
    (getA patch.blocks bh).isSome ∧
    ∀ b, getA patch.blocks bh = some b → b.prev_hash = Hash.zero := by
  have hlast : Schema.last_hash store = Hash.zero := by
    simp [Schema.last_hash, hempty]
  obtain ⟨fork1, cache1, fork2, he, hh, hc, hbh, hpatch⟩ :=
    create_patch_ok bc store pid 0 hashes cache bh patch cache' tr hok
  obtain ⟨th, sh, hentry⟩ := finalizeBlock_entry bc pid 0 hashes.length
    (Schema.last_hash store) fork2
  rw [← hbh, ← hpatch, hlast] at hentry
  refine ⟨hlast, ?_, ?_⟩
  · rw [hentry]
    rfl
  · intro b hb
    rw [hentry] at hb
    have hbb : (⟨pid, 0, hashes.length, Hash.zero, th, sh⟩ : Block) = b := by
      simpa using hb
    rw [← hbb]

/-- C10 witness: a height-0 create_patch on the empty store. -/
theorem last_hash_default_genesis_prev_spot :
    Schema.last_hash emptySchema = Hash.zero ∧
    (getA patchW10.blocks bhW10).isSome ∧
    ((getA patchW10.blocks bhW10).getD defaultBlock).prev_hash = Hash.zero := by
  have H := last_hash_default_genesis_prev bcT emptySchema 3 [] [] bhW10 patchW10
    ((buildCache outW10).getD []) ((buildTrace outW10).getD []) rfl rfl
  exact ⟨H.1, H.2.1,
    H.2.2 ((getA patchW10.blocks bhW10).getD defaultBlock) (by rfl)⟩

end Exonum

